import Mathlib

/-!
# Verification of the `svgbobdoc` text processor (`src/textproc.rs`)

This file gives a shallow embedding of the fenced-code-block scanner
`TextProcState` (its `step` and `finalize` operations) and of the diagram
encoder `convert_diagram`, and proves the specification claims about them.

Strings are modelled as `List Char`; the source-location token
(`proc_macro2::Span`) is modelled as a `Nat`.  The external svgbob SVG
renderer (an out-of-scope collaborator of `convert_diagram`) is modelled as
an abstract parameter `render : List Char → List Nat` producing the bytes of
the serialized SVG; the `base64` encoding and the embed-token formatting of
`convert_diagram` are modelled concretely.
-/

namespace Svgbobdoc

/-- Line splitting as done by the Rust loop in `step`: the fragment is cut at
every `'\n'`, and the final segment after the last `'\n'` (possibly empty) is
still processed as a line.  `splitLines "a\nb" = ["a","b"]`,
`splitLines "a\n" = ["a",""]`, `splitLines "" = [""]`. -/
def splitLines : List Char → List (List Char)
  | [] => [[]]
  | c :: rest =>
    if c = '\n' then [] :: splitLines rest
    else
      match splitLines rest with
      | [] => [[c]]
      | l :: ls => (c :: l) :: ls

/-- Join a list of lines with `'\n'` separators (no trailing newline). -/
def joinLines : List (List Char) → List Char
  | [] => []
  | [l] => l
  | l :: l' :: ls => l ++ '\n' :: joinLines (l' :: ls)

/-- `\s` of the Rust `regex` crate: Unicode white space. -/
def isWSChar (c : Char) : Bool :=
  c = ' ' || c = '\t' || c = '\n' || c = '\x0b' || c = '\x0c' || c = '\r' ||
  c.toNat = 0x85 || c.toNat = 0xA0 || c.toNat = 0x1680 ||
  (0x2000 ≤ c.toNat && c.toNat ≤ 0x200A) ||
  c.toNat = 0x2028 || c.toNat = 0x2029 || c.toNat = 0x202F ||
  c.toNat = 0x205F || c.toNat = 0x3000

/-- Trim white space from both ends, as the `\s*(.*?)\s*$` part of `FENCE_RE`
does to the language tag. -/
def trimWS (l : List Char) : List Char :=
  ((l.dropWhile isWSChar).reverse.dropWhile isWSChar).reverse

/-- A markdown fence delimiter character (`FENCE_RE` alternation). -/
def isFenceChar (c : Char) : Bool := c = '`' || c = '~'

/-- The regex `FENCE_RE = ^( {0,3}(?:`{3,}|~{3,}))\s*(.*?)\s*$` applied to one
line: on success returns (group 1, group 2) = (indent + maximal fence run,
trimmed language tag).  The indent is the line's run of leading spaces (which
must have length ≤ 3, else the regex cannot match), the fence run is the
maximal run of a single fence character following it (length ≥ 3 required). -/
def parseFence (l : List Char) : Option (List Char × List Char) :=
  if (l.takeWhile (fun c => c = ' ')).length ≤ 3 then
    match l.dropWhile (fun c => c = ' ') with
    | [] => none
    | c :: tl =>
      if isFenceChar c then
        if 3 ≤ ((c :: tl).takeWhile (fun d => d = c)).length then
          some (l.takeWhile (fun c => c = ' ') ++ (c :: tl).takeWhile (fun d => d = c),
                trimWS ((c :: tl).drop ((c :: tl).takeWhile (fun d => d = c)).length))
        else none
      else none
  else none

/-- `remove_indent` from the source: strip leading characters of `line` that
match `indent` position-by-position, while both are nonempty and the `indent`
character is a space or a tab. -/
def remove_indent : List Char → List Char → List Char
  | line, [] => line
  | [], _ => []
  | l :: ls, i :: is' =>
    if l = i ∧ (i = ' ' ∨ i = '\t') then remove_indent ls is' else l :: ls

/-- `starts_with` of Rust `str`: `startsWith pat s` holds when `pat` is an
initial segment of `s`. -/
def startsWith : List Char → List Char → Bool
  | [], _ => true
  | _ :: _, [] => false
  | p :: ps, s :: ss => p = s && startsWith ps ss

/-- The capture trigger of `step`:
`language == "svgbob" || language.starts_with("svgbob,")`. -/
def isTargetTag (tag : List Char) : Bool :=
  (tag == "svgbob".toList) || startsWith "svgbob,".toList tag

/-- The standard base64 alphabet used by `base64::encode`. -/
def base64Alphabet : List Char :=
  "ABCDEFGHIJKLMNOPQRSTUVWXYZabcdefghijklmnopqrstuvwxyz0123456789+/".toList

/-- One base64 digit. -/
def b64char (n : Nat) : Char := base64Alphabet.getD n 'A'

/-- `base64::encode` on a byte sequence (standard alphabet, `=` padding). -/
def base64encode : List Nat → List Char
  | [] => []
  | [a] => [b64char (a / 4), b64char (a % 4 * 16), '=', '=']
  | [a, b] => [b64char (a / 4), b64char (a % 4 * 16 + b / 16), b64char (b % 16 * 4), '=']
  | a :: b :: c :: rest =>
    b64char (a / 4) :: b64char (a % 4 * 16 + b / 16) ::
    b64char (b % 16 * 4 + c / 64) :: b64char (c % 64) :: base64encode rest

/-- `convert_diagram` from the source: render the captured art to SVG (the
svgbob rendering with its `textLength` fix-up is the abstract `render`
parameter, an external collaborator), base64-encode the serialized bytes, and
append the literal embed token
`![](data:image/svg+xml;base64,<B>)` — nothing before, nothing after. -/
def convert_diagram (render : List Char → List Nat) (art : List Char) : List Char :=
  "![](data:image/svg+xml;base64,".toList ++ base64encode (render art) ++ [')']

/-- `CapturedCodeBlock` from the source. -/
structure CapturedCodeBlock where
  content : List Char
deriving DecidableEq

/-- `CodeBlock` from the source (`start : Span` modelled as `Nat`). -/
structure CodeBlock where
  fence : List Char
  captured : Option CapturedCodeBlock
  start : Nat
deriving DecidableEq

/-- `TextProcState` from the source. -/
structure TextProcState where
  code_block : Option CodeBlock
deriving DecidableEq

/-- `TextProcState::new`. -/
def TextProcState.new : TextProcState := ⟨none⟩

/-- `TextProcOutput` from the source. -/
inductive TextProcOutput where
  | Passthrough : TextProcOutput
  | Empty : TextProcOutput
  | Fragment : List Char → TextProcOutput
deriving DecidableEq

/-- Whether a state is inside a block whose contents are being captured
(`Some(CodeBlock { captured: Some(_), .. })`). -/
def isCapturing : Option CodeBlock → Bool
  | some cb => cb.captured.isSome
  | none => false

/-- The local mutable state of one `step` call: the evolving `code_block`,
`new_frag`, `passthrough`, and `pre` = `fragment[0..i]`, the text of the
already-consumed lines. -/
structure StepAcc where
  cb : Option CodeBlock
  new_frag : Option (List Char)
  passthrough : Bool
  pre : List Char
deriving DecidableEq

/-- The `prepare_nonpassthrough_emission!` macro. -/
def prepare (acc : StepAcc) : StepAcc :=
  match acc.new_frag with
  | none =>
    { acc with
      new_frag := some (if acc.passthrough then acc.pre else [])
      passthrough := false }
  | some _ => { acc with passthrough := false }

/-- The `if passthrough_line { if let Some(new_frag) ... }` branch: a
passthrough line is appended to `new_frag` (with its newline when one
follows) when `new_frag` is materialized. -/
def passthroughEmit (acc : StepAcc) (line : List Char) (hasBreak : Bool) : StepAcc :=
  match acc.new_frag with
  | some nf =>
    { acc with new_frag := some (nf ++ line ++ if hasBreak then ['\n'] else []) }
  | none => acc

/-- The `else { if passthrough { prepare_nonpassthrough_emission!() } }`
branch for a suppressed line. -/
def suppressEmit (acc : StepAcc) : StepAcc :=
  if acc.passthrough then prepare acc else acc

/-- `i += next_break + 1`: record the consumed line in `pre`. -/
def advancePre (acc : StepAcc) (line : List Char) (hasBreak : Bool) : StepAcc :=
  { acc with pre := acc.pre ++ line ++ if hasBreak then ['\n'] else [] }

/-- The body of the line loop of `step`, without the `pre` bookkeeping:
classify `line` against the fence state and perform the corresponding state
update and emission. -/
def processLineCore (render : List Char → List Nat) (span : Nat) (acc : StepAcc)
    (line : List Char) (hasBreak : Bool) : StepAcc :=
  match acc.cb with
  | some cb =>
    if line = cb.fence then
      match cb.captured with
      | some cap =>
        -- Reached the end of a captured code block: suppress the line,
        -- prepare emission, pop the trailing newline, append the diagram.
        let acc1 := prepare acc
        { acc1 with
          cb := none
          new_frag :=
            some (acc1.new_frag.getD [] ++ convert_diagram render cap.content.dropLast) }
      | none => passthroughEmit { acc with cb := none } line hasBreak
    else
      match cb.captured with
      | some cap =>
        suppressEmit
          { acc with
            cb := some { cb with
              captured := some ⟨cap.content ++ remove_indent line cb.fence ++ ['\n']⟩ } }
      | none => passthroughEmit acc line hasBreak
  | none =>
    match parseFence line with
    | some (f, tag) =>
      if isTargetTag tag then
        suppressEmit { acc with cb := some ⟨f, some ⟨[]⟩, span⟩ }
      else
        passthroughEmit { acc with cb := some ⟨f, none, span⟩ } line hasBreak
    | none => passthroughEmit acc line hasBreak

/-- One full iteration of the line loop of `step`. -/
def processLine (render : List Char → List Nat) (span : Nat) (acc : StepAcc)
    (line : List Char) (hasBreak : Bool) : StepAcc :=
  advancePre (processLineCore render span acc line hasBreak) line hasBreak

/-- Run the line loop over all lines of a fragment; every line but the last
is followed by a line break. -/
def runLines (render : List Char → List Nat) (span : Nat) (acc : StepAcc) :
    List (List Char) → StepAcc
  | [] => acc
  | [l] => processLine render span acc l false
  | l :: l' :: ls => runLines render span (processLine render span acc l true) (l' :: ls)

/-- Run interior lines only (each followed by a line break). -/
def runInner (render : List Char → List Nat) (span : Nat) (acc : StepAcc)
    (ls : List (List Char)) : StepAcc :=
  ls.foldl (fun a l => processLine render span a l true) acc

/-- The initial loop state of one `step` call. -/
def initAcc (st : TextProcState) : StepAcc :=
  ⟨st.code_block, none, !(isCapturing st.code_block), []⟩

/-- The return value of `step` computed from the final loop state. -/
def accOut (acc : StepAcc) : TextProcOutput :=
  match acc.new_frag with
  | some f => .Fragment f
  | none => if acc.passthrough then .Passthrough else .Empty

/-- `TextProcState::step`, embedded over `List Char` fragments. -/
def step (render : List Char → List Nat) (st : TextProcState)
    (fragment : List Char) (span : Nat) : TextProcState × TextProcOutput :=
  (⟨(runLines render span (initAcc st) (splitLines fragment)).cb⟩,
   accOut (runLines render span (initAcc st) (splitLines fragment)))

/-- `syn::Error`, modelled as its span plus message. -/
structure SynError where
  span : Nat
  message : List Char
deriving DecidableEq

/-- The message of the only error the scanner raises. -/
def unclosedMsg : List Char := "unclosed code block".toList

/-- `TextProcState::finalize`. -/
def finalize (st : TextProcState) : Except SynError Unit :=
  match st.code_block with
  | some cb =>
    match cb.captured with
    | some _ => .error ⟨cb.start, unclosedMsg⟩
    | none => .ok ()
  | none => .ok ()

/-- How the embedding sink assembles the text of one output variant
(`Passthrough` re-emits the original chunk, `Empty` emits nothing,
`Fragment t` emits `t`). -/
def emitText (chunk : List Char) : TextProcOutput → List Char
  | .Passthrough => chunk
  | .Empty => []
  | .Fragment t => t

/-- Feed a sequence of chunks through `step`, concatenating the emitted
texts.  (The output texts do not depend on the span argument, so a single
span is used for all calls.) -/
def runChunks (render : List Char → List Nat) (span : Nat) (st : TextProcState) :
    List (List Char) → TextProcState × List Char
  | [] => (st, [])
  | c :: cs =>
    ((runChunks render span (step render st c span).1 cs).1,
     emitText c (step render st c span).2 ++ (runChunks render span (step render st c span).1 cs).2)

/-- Feed a sequence of chunks through `step`, collecting the outputs. -/
def runOutputs (render : List Char → List Nat) (span : Nat) (st : TextProcState) :
    List (List Char) → List TextProcOutput
  | [] => []
  | c :: cs =>
    (step render st c span).2 :: runOutputs render span (step render st c span).1 cs

/-- The de-indented captured text contributed by a list of content lines,
each with its appended newline. -/
def capContent (ls : List (List Char)) (f : List Char) : List Char :=
  (ls.map (fun l => remove_indent l f ++ ['\n'])).flatten

/-- A trivial renderer instance used for concrete evaluations. -/
def lenRender : List Char → List Nat := fun l => [l.length]

/-! ## Basic lemmas about the loop-state combinators -/

@[simp] theorem ifTrueNl (a b : List Char) : (if (true = true) then a else b) = a := rfl

@[simp] theorem ifFalseNl (a b : List Char) : (if (false = true) then a else b) = b := rfl

@[simp] theorem prepare_cb (a : StepAcc) : (prepare a).cb = a.cb := by
  unfold prepare; cases a.new_frag <;> rfl

@[simp] theorem prepare_pre (a : StepAcc) : (prepare a).pre = a.pre := by
  unfold prepare; cases a.new_frag <;> rfl

@[simp] theorem prepare_passthrough (a : StepAcc) : (prepare a).passthrough = false := by
  unfold prepare; cases a.new_frag <;> rfl

@[simp] theorem passthroughEmit_cb (a : StepAcc) (l : List Char) (b : Bool) :
    (passthroughEmit a l b).cb = a.cb := by
  unfold passthroughEmit; cases a.new_frag <;> rfl

@[simp] theorem passthroughEmit_passthrough (a : StepAcc) (l : List Char) (b : Bool) :
    (passthroughEmit a l b).passthrough = a.passthrough := by
  unfold passthroughEmit; cases a.new_frag <;> rfl

@[simp] theorem suppressEmit_cb (a : StepAcc) : (suppressEmit a).cb = a.cb := by
  unfold suppressEmit; split <;> simp

@[simp] theorem advancePre_cb (a : StepAcc) (l : List Char) (b : Bool) :
    (advancePre a l b).cb = a.cb := rfl

@[simp] theorem advancePre_new_frag (a : StepAcc) (l : List Char) (b : Bool) :
    (advancePre a l b).new_frag = a.new_frag := rfl

@[simp] theorem advancePre_passthrough (a : StepAcc) (l : List Char) (b : Bool) :
    (advancePre a l b).passthrough = a.passthrough := rfl

@[simp] theorem accOut_advancePre (a : StepAcc) (l : List Char) (b : Bool) :
    accOut (advancePre a l b) = accOut a := rfl

@[simp] theorem processLine_cb_eq (render : List Char → List Nat) (sp : Nat)
    (a : StepAcc) (l : List Char) (b : Bool) :
    (processLine render sp a l b).cb = (processLineCore render sp a l b).cb := rfl

/-! ## Lemmas about line splitting and joining -/

theorem splitLines_ne_nil (l : List Char) : splitLines l ≠ [] := by
  induction l with
  | nil => simp [splitLines]
  | cons c rest ih =>
    unfold splitLines
    split
    · simp
    · split
      · simp
      · simp

theorem splitLines_noNl (l : List Char) (h : '\n' ∉ l) : splitLines l = [l] := by
  induction l with
  | nil => rfl
  | cons c rest ih =>
    have hc : ¬ (c = '\n') := by
      intro hc; exact h (by simp [hc])
    have hr : '\n' ∉ rest := fun hm => h (List.mem_cons_of_mem _ hm)
    unfold splitLines
    rw [if_neg hc, ih hr]

theorem splitLines_cons_nl (l rest : List Char) (h : '\n' ∉ l) :
    splitLines (l ++ '\n' :: rest) = l :: splitLines rest := by
  induction l with
  | nil => simp [splitLines]
  | cons c t ih =>
    have hc : ¬ (c = '\n') := by
      intro hc; exact h (by simp [hc])
    have ht : '\n' ∉ t := fun hm => h (List.mem_cons_of_mem _ hm)
    conv_lhs => simp only [List.cons_append, splitLines]
    simp only [List.append_eq]
    rw [if_neg hc, ih ht]

theorem splitLines_joinLines (g : List (List Char)) (hg : g ≠ [])
    (hnl : ∀ l ∈ g, '\n' ∉ l) : splitLines (joinLines g) = g := by
  induction g with
  | nil => exact absurd rfl hg
  | cons l g ih =>
    cases g with
    | nil =>
      simp only [joinLines]
      exact splitLines_noNl l (hnl l (by simp))
    | cons l' g' =>
      simp only [joinLines]
      rw [splitLines_cons_nl l _ (hnl l (by simp))]
      rw [ih (by simp) (fun x hx => hnl x (List.mem_cons_of_mem _ hx))]

theorem splitLines_append_nl (t : List Char) :
    splitLines (t ++ ['\n']) = splitLines t ++ [[]] := by
  induction t with
  | nil => rfl
  | cons c rest ih =>
    unfold splitLines
    by_cases hc : c = '\n'
    · simp only [List.cons_append, hc, if_pos rfl, ih]
      rfl
    · simp only [List.cons_append, if_neg hc, ih]
      rcases hr : splitLines rest with _ | ⟨l, ls⟩
      · exact absurd hr (splitLines_ne_nil rest)
      · rfl

/-! ## Single-line characterization of `step` -/

theorem step_single (render : List Char → List Nat) (st : TextProcState)
    (l : List Char) (sp : Nat) (hnl : '\n' ∉ l) :
    step render st l sp =
      (⟨(processLineCore render sp (initAcc st) l false).cb⟩,
       accOut (processLineCore render sp (initAcc st) l false)) := by
  unfold step
  rw [splitLines_noNl l hnl]
  rfl

/-! ## Per-line behaviour inside a capturing block -/

theorem processLine_captured (render : List Char → List Nat) (sp : Nat)
    (f c : List Char) (spn : Nat) (nf : Option (List Char)) (p l : List Char) (b : Bool)
    (hne : l ≠ f) :
    processLine render sp ⟨some ⟨f, some ⟨c⟩, spn⟩, nf, false, p⟩ l b =
      ⟨some ⟨f, some ⟨c ++ remove_indent l f ++ ['\n']⟩, spn⟩, nf, false,
       p ++ l ++ if b then ['\n'] else []⟩ := by
  simp [processLine, processLineCore, hne, suppressEmit, advancePre]

theorem processLine_close (render : List Char → List Nat) (sp : Nat)
    (f c : List Char) (spn : Nat) (nf : Option (List Char)) (p : List Char) (b : Bool) :
    processLine render sp ⟨some ⟨f, some ⟨c⟩, spn⟩, nf, false, p⟩ f b =
      ⟨none, some (nf.getD [] ++ convert_diagram render c.dropLast), false,
       p ++ f ++ if b then ['\n'] else []⟩ := by
  cases nf <;> simp [processLine, processLineCore, prepare, advancePre]

theorem processLine_open_first (render : List Char → List Nat) (sp : Nat)
    (l f tag : List Char) (b : Bool)
    (hp : parseFence l = some (f, tag)) (ht : isTargetTag tag = true) :
    processLine render sp ⟨none, none, true, []⟩ l b =
      ⟨some ⟨f, some ⟨[]⟩, sp⟩, some [], false, l ++ if b then ['\n'] else []⟩ := by
  simp [processLine, processLineCore, hp, ht, suppressEmit, prepare, advancePre]

/-! ## Decomposing `runLines` -/

@[simp] theorem runInner_nil (render : List Char → List Nat) (sp : Nat) (acc : StepAcc) :
    runInner render sp acc [] = acc := rfl

theorem runInner_cons (render : List Char → List Nat) (sp : Nat) (acc : StepAcc)
    (l : List Char) (ls : List (List Char)) :
    runInner render sp acc (l :: ls) = runInner render sp (processLine render sp acc l true) ls := rfl

@[simp] theorem runLines_singleton (render : List Char → List Nat) (sp : Nat) (acc : StepAcc)
    (l : List Char) : runLines render sp acc [l] = processLine render sp acc l false := rfl

theorem runLines_cons_of_ne_nil (render : List Char → List Nat) (sp : Nat) (acc : StepAcc)
    (l : List Char) (ls : List (List Char)) (h : ls ≠ []) :
    runLines render sp acc (l :: ls) = runLines render sp (processLine render sp acc l true) ls := by
  cases ls with
  | nil => exact absurd rfl h
  | cons a as => rfl

theorem runLines_concat (render : List Char → List Nat) (sp : Nat)
    (xs : List (List Char)) (y : List Char) :
    ∀ acc : StepAcc, runLines render sp acc (xs ++ [y])
      = processLine render sp (runInner render sp acc xs) y false := by
  induction xs with
  | nil => intro acc; rfl
  | cons x xs ih =>
    intro acc
    rw [List.cons_append, runLines_cons_of_ne_nil _ _ _ _ _ (by simp), ih, runInner_cons]

/-- `capContent` distributes over appending line lists. -/
theorem capContent_append (xs ys : List (List Char)) (f : List Char) :
    capContent (xs ++ ys) f = capContent xs f ++ capContent ys f := by
  simp [capContent]

theorem capContent_cons (l : List Char) (ls : List (List Char)) (f : List Char) :
    capContent (l :: ls) f = remove_indent l f ++ ['\n'] ++ capContent ls f := by
  simp [capContent]

/-- Running a sequence of content lines (none equal to the fence) while
capturing appends their de-indented text to the captured content and touches
neither `new_frag` nor `passthrough`. -/
theorem runInner_captured (render : List Char → List Nat) (sp : Nat) (f : List Char) :
    ∀ (ds : List (List Char)) (c : List Char) (spn : Nat) (nf : Option (List Char))
      (p : List Char), (∀ l ∈ ds, l ≠ f) →
      ∃ q, runInner render sp ⟨some ⟨f, some ⟨c⟩, spn⟩, nf, false, p⟩ ds =
        ⟨some ⟨f, some ⟨c ++ capContent ds f⟩, spn⟩, nf, false, q⟩ := by
  intro ds
  induction ds with
  | nil =>
    intro c spn nf p _
    exact ⟨p, by simp [capContent]⟩
  | cons d ds ih =>
    intro c spn nf p hne
    rw [runInner_cons, processLine_captured _ _ _ _ _ _ _ _ _ (hne d (by simp)), ifTrueNl]
    obtain ⟨q, hq⟩ := ih (c ++ remove_indent d f ++ ['\n']) spn nf
      (p ++ d ++ ['\n']) (fun l hl => hne l (by simp [hl]))
    refine ⟨q, ?_⟩
    rw [hq, capContent_cons]
    simp [List.append_assoc]

/-! ## Whole-chunk behaviour -/

/-- A chunk made of content lines only, arriving while capture is active:
the state gains the de-indented content, the output is `Empty`. -/
theorem step_capture_content (render : List Char → List Nat) (sp spn : Nat)
    (f c : List Char) (g : List (List Char)) (hg : g ≠ [])
    (hnl : ∀ l ∈ g, '\n' ∉ l) (hne : ∀ l ∈ g, l ≠ f) :
    step render ⟨some ⟨f, some ⟨c⟩, spn⟩⟩ (joinLines g) sp
      = (⟨some ⟨f, some ⟨c ++ capContent g f⟩, spn⟩⟩, .Empty) := by
  rcases List.eq_nil_or_concat g with rfl | ⟨ds, y, rfl⟩
  · exact absurd rfl hg
  · simp only [List.concat_eq_append] at hnl hne ⊢
    unfold step
    rw [splitLines_joinLines _ (by simp) hnl, runLines_concat]
    have hia : initAcc ⟨some ⟨f, some ⟨c⟩, spn⟩⟩
        = ⟨some ⟨f, some ⟨c⟩, spn⟩, none, false, []⟩ := rfl
    rw [hia]
    obtain ⟨q, hq⟩ := runInner_captured render sp f ds c spn none []
      (fun l hl => hne l (by simp [hl]))
    rw [hq, processLine_captured _ _ _ _ _ _ _ _ _ (hne y (by simp))]
    rw [capContent_append, capContent_cons]
    simp [accOut, capContent, List.append_assoc]

/-- A chunk of content lines ending with the exact close line, arriving while
capture is active: the block closes and the diagram token is emitted, alone. -/
theorem step_capture_close (render : List Char → List Nat) (sp spn : Nat)
    (f c : List Char) (ds : List (List Char))
    (hnl : ∀ l ∈ ds, '\n' ∉ l) (hne : ∀ l ∈ ds, l ≠ f) (hfnl : '\n' ∉ f) :
    step render ⟨some ⟨f, some ⟨c⟩, spn⟩⟩ (joinLines (ds ++ [f])) sp
      = (⟨none⟩, .Fragment (convert_diagram render (c ++ capContent ds f).dropLast)) := by
  unfold step
  rw [splitLines_joinLines _ (by simp)
        (by intro l hl
            rcases List.mem_append.mp hl with h | h
            · exact hnl l h
            · simp at h; subst h; exact hfnl),
      runLines_concat]
  have hia : initAcc ⟨some ⟨f, some ⟨c⟩, spn⟩⟩
      = ⟨some ⟨f, some ⟨c⟩, spn⟩, none, false, []⟩ := rfl
  rw [hia]
  obtain ⟨q, hq⟩ := runInner_captured render sp f ds c spn none [] hne
  rw [hq, processLine_close]
  simp [accOut]

/-- The chunk that opens a capturing block (first line `openLine`) followed by
content lines only: the capture starts with those lines' de-indented text and
the output is `Fragment ""`. -/
theorem step_open_chunk_content (render : List Char → List Nat) (sp : Nat)
    (openLine f tag : List Char) (d : List (List Char))
    (hopen : parseFence openLine = some (f, tag)) (htag : isTargetTag tag = true)
    (honl : '\n' ∉ openLine) (hdnl : ∀ l ∈ d, '\n' ∉ l) (hdne : ∀ l ∈ d, l ≠ f) :
    step render TextProcState.new (joinLines (openLine :: d)) sp
      = (⟨some ⟨f, some ⟨capContent d f⟩, sp⟩⟩, .Fragment []) := by
  rcases List.eq_nil_or_concat d with rfl | ⟨ds, y, rfl⟩
  · unfold step
    rw [splitLines_joinLines _ (by simp) (by intro l hl; simp at hl; subst hl; exact honl)]
    rw [runLines_singleton]
    have hia : initAcc TextProcState.new = ⟨none, none, true, []⟩ := rfl
    rw [hia, processLine_open_first _ _ _ _ _ _ hopen htag]
    simp [accOut, capContent]
  · simp only [List.concat_eq_append] at hdnl hdne ⊢
    unfold step
    rw [splitLines_joinLines _ (by simp)
          (by intro l hl
              rcases List.mem_cons.mp hl with h | h
              · subst h; exact honl
              · exact hdnl l h)]
    rw [show openLine :: (ds ++ [y]) = (openLine :: ds) ++ [y] from rfl, runLines_concat]
    have hia : initAcc TextProcState.new = ⟨none, none, true, []⟩ := rfl
    rw [hia, runInner_cons, processLine_open_first _ _ _ _ _ _ hopen htag]
    obtain ⟨q, hq⟩ := runInner_captured render sp f ds [] sp (some []) _
      (fun l hl => hdne l (by simp [hl]))
    rw [hq, processLine_captured _ _ _ _ _ _ _ _ _ (hdne y (by simp))]
    rw [capContent_append, capContent_cons]
    simp [accOut, capContent, List.append_assoc]

/-- The whole well-formed capturing block as a single chunk: open line,
content lines, exact close line.  The output is the diagram token alone. -/
theorem step_open_chunk_close (render : List Char → List Nat) (sp : Nat)
    (openLine f tag : List Char) (ds : List (List Char))
    (hopen : parseFence openLine = some (f, tag)) (htag : isTargetTag tag = true)
    (honl : '\n' ∉ openLine) (hdnl : ∀ l ∈ ds, '\n' ∉ l) (hdne : ∀ l ∈ ds, l ≠ f)
    (hfnl : '\n' ∉ f) :
    step render TextProcState.new (joinLines (openLine :: (ds ++ [f]))) sp
      = (⟨none⟩, .Fragment (convert_diagram render (capContent ds f).dropLast)) := by
  unfold step
  rw [splitLines_joinLines _ (by simp)
        (by intro l hl
            rcases List.mem_cons.mp hl with h | h
            · subst h; exact honl
            · rcases List.mem_append.mp h with h' | h'
              · exact hdnl l h'
              · simp at h'; subst h'; exact hfnl)]
  rw [show openLine :: (ds ++ [f]) = (openLine :: ds) ++ [f] from rfl, runLines_concat]
  have hia : initAcc TextProcState.new = ⟨none, none, true, []⟩ := rfl
  rw [hia, runInner_cons, processLine_open_first _ _ _ _ _ _ hopen htag]
  obtain ⟨q, hq⟩ := runInner_captured render sp f ds [] sp (some []) _ hdne
  rw [hq, processLine_close]
  simp [accOut]

/-! ## Chunk sequences -/

theorem runChunks_cons (render : List Char → List Nat) (sp : Nat) (st : TextProcState)
    (ch : List Char) (cs : List (List Char)) :
    runChunks render sp st (ch :: cs)
      = ((runChunks render sp (step render st ch sp).1 cs).1,
         emitText ch (step render st ch sp).2
           ++ (runChunks render sp (step render st ch sp).1 cs).2) := rfl

theorem eq_nil_of_flatten_nil (Q : List (List (List Char))) (hne : ∀ g ∈ Q, g ≠ [])
    (h : Q.flatten = []) : Q = [] := by
  cases Q with
  | nil => rfl
  | cons g Q' =>
    exfalso
    simp only [List.flatten_cons, List.append_eq_nil] at h
    exact hne g (by simp) h.1

/-- Processing, from a state with active capture, any partition of the
remaining content lines plus the exact close line into nonempty chunks
(each chunk the `'\n'`-join of its lines): every content chunk emits
nothing, the chunk containing the close line emits exactly the diagram
token, and the final state is closed. -/
theorem runChunks_capture (render : List Char → List Nat) (sp spn : Nat) (f : List Char)
    (hfnl : '\n' ∉ f) :
    ∀ (Q : List (List (List Char))) (ds : List (List Char)) (c : List Char),
      Q.flatten = ds ++ [f] →
      (∀ g ∈ Q, g ≠ []) →
      (∀ l ∈ ds, l ≠ f ∧ '\n' ∉ l) →
      runChunks render sp ⟨some ⟨f, some ⟨c⟩, spn⟩⟩ (Q.map joinLines)
        = (⟨none⟩, convert_diagram render (c ++ capContent ds f).dropLast) := by
  intro Q
  induction Q with
  | nil =>
    intro ds c h _ _
    exfalso
    cases ds <;> simp at h
  | cons g Q' ih =>
    intro ds c hflat hne hds
    have hgne : g ≠ [] := hne g (by simp)
    have hne' : ∀ g' ∈ Q', g' ≠ [] := fun g' hg' => hne g' (by simp [hg'])
    simp only [List.flatten_cons] at hflat
    rcases List.append_eq_append_iff.mp hflat with ⟨a, ha1, ha2⟩ | ⟨a, ha1, ha2⟩
    · -- g is a prefix of the content lines; the rest is a ++ [f]
      subst ha1
      have hdg : ∀ l ∈ g, l ≠ f ∧ '\n' ∉ l := fun l hl => hds l (by simp [hl])
      have hda : ∀ l ∈ a, l ≠ f ∧ '\n' ∉ l := fun l hl => hds l (by simp [hl])
      rw [List.map_cons, runChunks_cons,
          step_capture_content render sp spn f c g hgne
            (fun l hl => (hdg l hl).2) (fun l hl => (hdg l hl).1),
          ih a (c ++ capContent g f) ha2 hne' hda]
      simp [emitText, capContent_append, List.append_assoc]
    · -- g covers all content lines and possibly the close line
      rcases a with _ | ⟨x, xs⟩
      · -- a = []: g is exactly the content lines, the close line is ahead
        simp only [List.append_nil] at ha1
        subst ha1
        simp only [List.nil_append] at ha2
        rw [List.map_cons, runChunks_cons,
            step_capture_content render sp spn f c g hgne
              (fun l hl => (hds l hl).2) (fun l hl => (hds l hl).1),
            ih [] (c ++ capContent g f) ha2.symm hne' (by simp)]
        simp [emitText, capContent, capContent_append]
      · -- a = [f]: g ends with the close line and Q' is empty
        simp only [List.cons_append, List.cons.injEq] at ha2
        obtain ⟨hfx, hrest⟩ := ha2
        subst hfx
        have hxsnil : xs = [] := (List.append_eq_nil.mp hrest.symm).1
        have hQnil : Q' = [] :=
          eq_nil_of_flatten_nil Q' hne' (List.append_eq_nil.mp hrest.symm).2
        subst hxsnil hQnil
        subst ha1
        rw [List.map_cons, runChunks_cons,
            step_capture_close render sp spn f c ds
              (fun l hl => (hds l hl).2) (fun l hl => (hds l hl).1) hfnl]
        simp [emitText, runChunks]

/-- Any partition of a well-formed capturing block into nonempty
non-newline-terminated chunks emits, in total, exactly the diagram token. -/
theorem runChunks_block (render : List Char → List Nat) (sp : Nat)
    (openLine f tag : List Char) (cs : List (List Char)) (P : List (List (List Char)))
    (hopen : parseFence openLine = some (f, tag)) (htag : isTargetTag tag = true)
    (hcs : ∀ l ∈ cs, l ≠ f ∧ '\n' ∉ l) (honl : '\n' ∉ openLine) (hfnl : '\n' ∉ f)
    (hP : P.flatten = openLine :: (cs ++ [f])) (hPne : ∀ g ∈ P, g ≠ []) :
    (runChunks render sp TextProcState.new (P.map joinLines)).2
      = convert_diagram render (capContent cs f).dropLast := by
  cases P with
  | nil => simp at hP
  | cons g P' =>
    have hgne : g ≠ [] := hPne g (by simp)
    have hne' : ∀ g' ∈ P', g' ≠ [] := fun g' h => hPne g' (by simp [h])
    simp only [List.flatten_cons] at hP
    rcases g with _ | ⟨h0, d⟩
    · exact absurd rfl hgne
    simp only [List.cons_append, List.cons.injEq] at hP
    obtain ⟨rfl, hdfl⟩ := hP
    rcases List.append_eq_append_iff.mp hdfl with ⟨a, ha1, ha2⟩ | ⟨a, ha1, ha2⟩
    · -- cs = d ++ a : the first chunk opens and captures part of the content
      subst ha1
      have hdd : ∀ l ∈ d, l ≠ f ∧ '\n' ∉ l := fun l hl => hcs l (by simp [hl])
      have hda : ∀ l ∈ a, l ≠ f ∧ '\n' ∉ l := fun l hl => hcs l (by simp [hl])
      rw [List.map_cons, runChunks_cons,
          step_open_chunk_content render sp h0 f tag d hopen htag honl
            (fun l hl => (hdd l hl).2) (fun l hl => (hdd l hl).1),
          runChunks_capture render sp sp f hfnl P' a (capContent d f) ha2 hne' hda]
      simp [emitText, capContent_append]
    · -- d = cs ++ a : the first chunk holds all the content, maybe the close
      rcases a with _ | ⟨x, xs⟩
      · -- the close line is in a later chunk
        simp only [List.append_nil] at ha1
        subst ha1
        simp only [List.nil_append] at ha2
        rw [List.map_cons, runChunks_cons,
            step_open_chunk_content render sp h0 f tag d hopen htag honl
              (fun l hl => (hcs l hl).2) (fun l hl => (hcs l hl).1),
            runChunks_capture render sp sp f hfnl P' [] (capContent d f)
              ha2.symm hne' (by simp)]
        simp [emitText, capContent, capContent_append]
      · -- the whole block is the single chunk
        simp only [List.cons_append, List.cons.injEq] at ha2
        obtain ⟨hfx, hrest⟩ := ha2
        subst hfx
        have hxsnil : xs = [] := (List.append_eq_nil.mp hrest.symm).1
        have hQnil : P' = [] :=
          eq_nil_of_flatten_nil P' hne' (List.append_eq_nil.mp hrest.symm).2
        subst hxsnil hQnil
        subst ha1
        rw [List.map_cons, runChunks_cons,
            step_open_chunk_close render sp h0 f tag cs hopen htag honl
              (fun l hl => (hcs l hl).2) (fun l hl => (hcs l hl).1) hfnl]
        simp [emitText, runChunks]

/-! ## Claim theorems -/

/-- C1 (amended): for a well-formed target-tagged block (open fence line,
content lines, close line equal to the recorded fence text), and for every
partition of the block's lines into nonempty chunks each being the
`'\n'`-join of consecutive lines (chunks not newline-terminated), the
concatenation of the texts emitted by the sequence of `step` calls is the
same for every such chunking and equals the output obtained by feeding the
whole block to `step` as one chunk.  (As literally stated — splitting the
block's newline-terminated text at line boundaries — the claim fails,
because a chunk ending in a line feed makes `step` process the empty final
segment as an extra captured line; see the counterexample.) -/
theorem chunking_independence (render : List Char → List Nat) (sp : Nat)
    (openLine f tag : List Char) (cs : List (List Char)) (P : List (List (List Char)))
    (hopen : parseFence openLine = some (f, tag)) (htag : isTargetTag tag = true)
    (hcs : ∀ l ∈ cs, l ≠ f ∧ '\n' ∉ l) (honl : '\n' ∉ openLine) (hfnl : '\n' ∉ f)
    (hP : P.flatten = openLine :: (cs ++ [f])) (hPne : ∀ g ∈ P, g ≠ []) :
    (runChunks render sp TextProcState.new (P.map joinLines)).2
      = emitText (joinLines (openLine :: (cs ++ [f])))
          (step render TextProcState.new (joinLines (openLine :: (cs ++ [f]))) sp).2 := by
  rw [runChunks_block render sp openLine f tag cs P hopen htag hcs honl hfnl hP hPne,
      step_open_chunk_close render sp openLine f tag cs hopen htag honl
        (fun l hl => (hcs l hl).2) (fun l hl => (hcs l hl).1) hfnl]
  rfl

/-- C1 witness: the block ```` ```svgbob / +-+ / ``` ```` split into the
chunks `["```svgbob"]` and `["+-+", "```"]` emits the same text as the whole
block fed as one chunk. -/
theorem chunking_independence_witness :
    (parseFence ("```svgbob".toList) = some ("```".toList, "svgbob".toList)
      ∧ isTargetTag ("svgbob".toList) = true) ∧
    (runChunks lenRender 0 TextProcState.new
        ([[("```svgbob".toList)], ["+-+".toList, "```".toList]].map joinLines)).2
      = emitText (joinLines ["```svgbob".toList, "+-+".toList, "```".toList])
          (step lenRender TextProcState.new
            (joinLines ["```svgbob".toList, "+-+".toList, "```".toList]) 0).2 := by
  refine ⟨⟨by decide, by decide⟩, ?_⟩
  exact chunking_independence lenRender 0 ("```svgbob".toList) ("```".toList)
    ("svgbob".toList) ["+-+".toList] [[("```svgbob".toList)], ["+-+".toList, "```".toList]]
    (by decide) (by decide) (by decide) (by decide) (by decide) (by decide) (by decide)

/-- C1 counterexample: the claim as stated is false.  Splitting the
newline-terminated text of the block ```` ```svgbob / +-+ / | | / +-+ / ``` ````
at line boundaries into five chunks yields a different assembled output than
feeding the whole block as one chunk: each newline-terminated chunk processed
while capture is active contributes an extra empty captured line. -/
theorem chunking_independence_cex :
    (runChunks lenRender 0 TextProcState.new
        ["```svgbob\n".toList, "+-+\n".toList, "| |\n".toList, "+-+\n".toList,
         "```\n".toList]).2
      ≠ emitText ("```svgbob\n+-+\n| |\n+-+\n```\n".toList)
          (step lenRender TextProcState.new
            ("```svgbob\n+-+\n| |\n+-+\n```\n".toList) 0).2 := by
  decide

/-- C3: while a block is open, a line closes it if and only if it is
string-equal, character for character, to the recorded fence text — whether
or not the block is capturing. -/
theorem close_line_exact_match (render : List Char → List Nat)
    (f l : List Char) (cap : Option CapturedCodeBlock) (spn sp : Nat)
    (hnl : '\n' ∉ l) :
    (step render ⟨some ⟨f, cap, spn⟩⟩ l sp).1.code_block = none ↔ l = f := by
  rw [step_single render _ l sp hnl]
  by_cases h : l = f
  · subst h
    cases cap <;>
      simp [processLineCore, initAcc, isCapturing, prepare, suppressEmit, passthroughEmit]
  · cases cap <;>
      simp [processLineCore, initAcc, isCapturing, h, prepare, suppressEmit, passthroughEmit]

/-- C3 witness: with recorded fence `"```"`, the line `" ```"` (leading
space) does not close the block, `"````"` (four backticks) does not, and
`"```"` does. -/
theorem close_line_exact_match_witness :
    ('\n' ∉ " ```".toList ∧
      ¬ (step lenRender ⟨some ⟨"```".toList, some ⟨[]⟩, 0⟩⟩ " ```".toList 0).1.code_block
          = none) ∧
    ('\n' ∉ "````".toList ∧
      ¬ (step lenRender ⟨some ⟨"```".toList, some ⟨[]⟩, 0⟩⟩ "````".toList 0).1.code_block
          = none) ∧
    ('\n' ∉ "```".toList ∧
      (step lenRender ⟨some ⟨"```".toList, some ⟨[]⟩, 0⟩⟩ "```".toList 0).1.code_block
        = none) := by
  refine ⟨⟨by decide, ?_⟩, ⟨by decide, ?_⟩, ⟨by decide, ?_⟩⟩
  · rw [close_line_exact_match lenRender _ _ _ _ _ (by decide)]
    decide
  · rw [close_line_exact_match lenRender _ _ _ _ _ (by decide)]
    decide
  · exact (close_line_exact_match lenRender _ _ _ _ _ (by decide)).mpr (by decide)

/-- C4: every line captured inside a target block is appended to the content
as `remove_indent line fence_text` followed by a newline, where
`remove_indent` strips leading characters position-by-position against the
fence text while both have characters, the characters agree, and the fence
character is a space or tab. -/
theorem capture_indent_strip (render : List Char → List Nat)
    (f l c : List Char) (spn sp : Nat) (hne : l ≠ f) (hnl : '\n' ∉ l) :
    (step render ⟨some ⟨f, some ⟨c⟩, spn⟩⟩ l sp).1
      = ⟨some ⟨f, some ⟨c ++ remove_indent l f ++ ['\n']⟩, spn⟩⟩ := by
  rw [step_single render _ l sp hnl]
  simp [processLineCore, initAcc, isCapturing, hne, suppressEmit]

/-- C4 witness: with fence text `"  ```"` (from opening line
`"  ```svgbob"`), the content line `"   x"` is captured as `" x\n"` — two
spaces stripped, one preserved. -/
theorem capture_indent_strip_witness :
    ("   x".toList ≠ "  ```".toList ∧ '\n' ∉ "   x".toList) ∧
    (step lenRender ⟨some ⟨"  ```".toList, some ⟨[]⟩, 0⟩⟩ "   x".toList 0).1
      = ⟨some ⟨"  ```".toList, some ⟨" x\n".toList⟩, 0⟩⟩ := by
  refine ⟨⟨by decide, by decide⟩, ?_⟩
  rw [capture_indent_strip lenRender _ _ _ _ _ (by decide) (by decide)]
  decide

/-- C5: `finalize` returns the `UnclosedCodeBlock` error, carrying the
location recorded when the fence opened, if and only if a block with active
capture is still open; an open block without capture, or no block, yields
`Ok`.  (`step` is total by construction: no other operation can fail.) -/
theorem finalize_unclosed_iff (st : TextProcState) :
    (∃ cb, st.code_block = some cb ∧ cb.captured.isSome = true ∧
        finalize st = Except.error ⟨cb.start, unclosedMsg⟩)
    ∨ (finalize st = Except.ok () ∧ ∀ cb, st.code_block = some cb → cb.captured = none) := by
  obtain ⟨cbo⟩ := st
  rcases cbo with _ | ⟨f, cap, spn⟩
  · right
    exact ⟨rfl, by intro cb h; cases h⟩
  · rcases cap with _ | cap
    · right
      refine ⟨rfl, ?_⟩
      intro cb h
      injection h with h2
      subst h2
      rfl
    · left
      exact ⟨⟨f, some cap, spn⟩, rfl, rfl, rfl⟩

/-- C8: closing a captured block appends to the rewritten output exactly the
literal token `![](data:image/svg+xml;base64,<B>)`, where `<B>` is the
base64 encoding of the rendered SVG of the captured text — zero alt text,
fixed MIME type, nothing before or after. -/
theorem embed_token_shape (render : List Char → List Nat)
    (f c : List Char) (spn sp : Nat) (hnl : '\n' ∉ f) :
    (step render ⟨some ⟨f, some ⟨c⟩, spn⟩⟩ f sp).2
      = .Fragment ("![](data:image/svg+xml;base64,".toList
          ++ base64encode (render c.dropLast) ++ [')']) := by
  rw [step_single render _ f sp hnl]
  simp [processLineCore, initAcc, isCapturing, prepare, accOut, convert_diagram]

/-- C8 witness: closing a block with captured content `"+-+\n"` emits
exactly the embed token for the render of `"+-+"`. -/
theorem embed_token_shape_witness :
    ('\n' ∉ "```".toList) ∧
    (step lenRender ⟨some ⟨"```".toList, some ⟨"+-+\n".toList⟩, 0⟩⟩ "```".toList 0).2
      = .Fragment ("![](data:image/svg+xml;base64,".toList
          ++ base64encode (lenRender ("+-+\n".toList.dropLast)) ++ [')']) :=
  ⟨by decide, embed_token_shape lenRender ("```".toList) ("+-+\n".toList) 0 0 (by decide)⟩

/-! ## The fence state as a fold over lines

The `code_block` component of the scanner evolves independently of the
emission bookkeeping: each line maps the current `Option CodeBlock` through
`lineCB`. -/

@[simp] theorem remove_indent_nil (f : List Char) : remove_indent [] f = [] := by
  cases f <;> rfl

/-- The effect of one line on the `code_block` state alone. -/
def lineCB (span : Nat) (cbo : Option CodeBlock) (line : List Char) : Option CodeBlock :=
  match cbo with
  | some cb =>
    if line = cb.fence then none
    else
      match cb.captured with
      | some cap =>
        some { cb with
          captured := some ⟨cap.content ++ remove_indent line cb.fence ++ ['\n']⟩ }
      | none => some cb
  | none =>
    match parseFence line with
    | some (f, tag) => some ⟨f, if isTargetTag tag then some ⟨[]⟩ else none, span⟩
    | none => none

theorem processLineCore_cb (render : List Char → List Nat) (sp : Nat)
    (acc : StepAcc) (l : List Char) (b : Bool) :
    (processLineCore render sp acc l b).cb = lineCB sp acc.cb l := by
  obtain ⟨cbo, nf, pt, pre⟩ := acc
  rcases cbo with _ | ⟨f, cap, spn⟩
  · rcases hp : parseFence l with _ | ⟨f, tag⟩ <;>
      simp only [processLineCore, lineCB, hp] <;> [skip; split] <;> simp
  · by_cases hl : l = f
    · subst hl
      rcases cap with _ | cap <;> simp [processLineCore, lineCB]
    · rcases cap with _ | cap <;> simp [processLineCore, lineCB, hl]

theorem runLines_cb (render : List Char → List Nat) (sp : Nat) :
    ∀ (ls : List (List Char)) (acc : StepAcc),
      (runLines render sp acc ls).cb = ls.foldl (lineCB sp) acc.cb := by
  intro ls
  induction ls with
  | nil => intro acc; rfl
  | cons l ls ih =>
    intro acc
    cases ls with
    | nil =>
      simp [runLines, processLine, processLineCore_cb]
    | cons l2 ls2 =>
      rw [runLines_cons_of_ne_nil _ _ _ _ _ (by simp), ih, List.foldl_cons,
          processLine_cb_eq, processLineCore_cb]
      rfl

theorem step_cb (render : List Char → List Nat) (st : TextProcState)
    (frag : List Char) (sp : Nat) :
    (step render st frag sp).1 = ⟨(splitLines frag).foldl (lineCB sp) st.code_block⟩ := by
  unfold step
  rw [show (⟨(runLines render sp (initAcc st) (splitLines frag)).cb⟩,
        accOut (runLines render sp (initAcc st) (splitLines frag))).1
      = (⟨(runLines render sp (initAcc st) (splitLines frag)).cb⟩ : TextProcState) from rfl,
      runLines_cb]
  rfl

/-- C10: for every chunk whose text ends with a line feed, `step` also
processes the empty final segment after the last line feed as a line of its
own; consequently, when capture is active (and the empty segment is not the
close line, as the fence text is nonempty), each newline-terminated chunk
appends one extra bare newline to the captured content beyond its visible
lines. -/
theorem trailing_newline_extra_capture (render : List Char → List Nat) (sp : Nat)
    (st : TextProcState) (t f c : List Char) (spn : Nat) (hf : f ≠ [])
    (h : (step render st t sp).1 = ⟨some ⟨f, some ⟨c⟩, spn⟩⟩) :
    (step render st (t ++ ['\n']) sp).1 = ⟨some ⟨f, some ⟨c ++ ['\n']⟩, spn⟩⟩ := by
  rw [step_cb] at h ⊢
  rw [splitLines_append_nl, List.foldl_append]
  have h' : (splitLines t).foldl (lineCB sp) st.code_block = some ⟨f, some ⟨c⟩, spn⟩ := by
    injection h
  rw [h']
  have hne : ([] : List Char) ≠ f := fun he => hf he.symm
  simp [lineCB, hne]

/-- C10 witness: the chunk `"```svgbob"` leaves capture active with empty
content; the chunk `"```svgbob\n"` leaves capture active with content `"\n"`
— the phantom empty line after the trailing line feed was captured. -/
theorem trailing_newline_extra_capture_witness :
    ("```".toList ≠ [] ∧
      (step lenRender TextProcState.new ("```svgbob".toList) 0).1
        = ⟨some ⟨"```".toList, some ⟨([] : List Char)⟩, 0⟩⟩) ∧
    (step lenRender TextProcState.new ("```svgbob".toList ++ ['\n']) 0).1
      = ⟨some ⟨"```".toList, some ⟨([] : List Char) ++ ['\n']⟩, 0⟩⟩ := by
  refine ⟨⟨by decide, by decide⟩, ?_⟩
  exact trailing_newline_extra_capture lenRender 0 TextProcState.new
    ("```svgbob".toList) ("```".toList) ([] : List Char) 0 (by decide) (by decide)

/-! ## The captured-content newline invariant -/

/-- The amended invariant: while capture is in progress the content is empty
or ends with a newline. -/
def contentEndsNl : Option CodeBlock → Prop
  | some cb =>
    match cb.captured with
    | some cap => cap.content = [] ∨ cap.content.getLast? = some '\n'
    | none => True
  | none => True

theorem lineCB_contentEndsNl (sp : Nat) (cbo : Option CodeBlock) (l : List Char) :
    contentEndsNl (lineCB sp cbo l) := by
  rcases cbo with _ | ⟨f, cap, spn⟩
  · rcases hp : parseFence l with _ | ⟨f, tag⟩ <;> simp only [lineCB, hp]
    · trivial
    · split
      · simp [contentEndsNl]
      · simp [contentEndsNl]
  · by_cases hl : l = f
    · simp [lineCB, hl, contentEndsNl]
    · rcases cap with _ | ⟨cc⟩
      · simp [lineCB, hl, contentEndsNl]
      · simp only [lineCB, hl, if_false, contentEndsNl]
        exact Or.inr (List.getLast?_concat _)

theorem foldl_lineCB_contentEndsNl (sp : Nat) :
    ∀ (ls : List (List Char)) (cbo : Option CodeBlock),
      ls ≠ [] → contentEndsNl (ls.foldl (lineCB sp) cbo) := by
  intro ls
  induction ls with
  | nil => intro cbo h; exact absurd rfl h
  | cons l ls ih =>
    intro cbo _
    cases ls with
    | nil => exact lineCB_contentEndsNl sp cbo l
    | cons l2 ls2 => exact ih (lineCB sp cbo l) (by simp)

/-- C9 (amended): after every `step` call, the captured content of an open
capturing block is either empty (no line captured yet) or ends with a
newline, because every captured line is appended together with its own
terminating newline.  (As stated — the content always ends with a newline
while capture is in progress — the claim fails right after a capture-opening
chunk with no trailing line feed, when the content is the empty string; see
the counterexample.) -/
theorem content_newline_invariant (render : List Char → List Nat) (sp : Nat)
    (st : TextProcState) (frag : List Char) :
    contentEndsNl ((step render st frag sp).1.code_block) := by
  rw [step_cb]
  exact foldl_lineCB_contentEndsNl sp (splitLines frag) st.code_block
    (splitLines_ne_nil frag)

/-- C9 counterexample: after the chunk `"```svgbob"` (no trailing line
feed), capture is in progress but the captured content is the empty string,
which does not end with a newline. -/
theorem content_newline_cex :
    (step lenRender TextProcState.new ("```svgbob".toList) 0).1
        = ⟨some ⟨"```".toList, some ⟨([] : List Char)⟩, 0⟩⟩
      ∧ ¬ (([] : List Char).getLast? = some '\n') := ⟨by decide, by decide⟩

/-! ## The Empty-output law: inversion of the emission bookkeeping -/

theorem accOut_empty_iff (a : StepAcc) :
    accOut a = .Empty ↔ a.new_frag = none ∧ a.passthrough = false := by
  obtain ⟨cbo, nf, pt, pre⟩ := a
  cases nf <;> cases pt <;> simp [accOut]

theorem prepare_new_frag_ne_none (a : StepAcc) : (prepare a).new_frag ≠ none := by
  unfold prepare
  cases h : a.new_frag <;> simp

theorem passthroughEmit_none (a : StepAcc) (l : List Char) (b : Bool)
    (h : (passthroughEmit a l b).new_frag = none) :
    a.new_frag = none ∧ (passthroughEmit a l b).passthrough = a.passthrough := by
  unfold passthroughEmit at h ⊢
  cases ha : a.new_frag <;> simp [ha] at h ⊢

theorem suppressEmit_none (a : StepAcc) (h : (suppressEmit a).new_frag = none) :
    a.new_frag = none ∧ (suppressEmit a).passthrough = a.passthrough := by
  unfold suppressEmit at h ⊢
  by_cases hp : a.passthrough = true
  · rw [if_pos hp] at h
    exact absurd h (prepare_new_frag_ne_none a)
  · rw [if_neg hp] at h ⊢
    exact ⟨h, rfl⟩

/-- A line leaves `new_frag` unmaterialized only if it was unmaterialized
before, and then `passthrough` is unchanged. -/
theorem processLine_new_frag_none (render : List Char → List Nat) (sp : Nat)
    (acc : StepAcc) (l : List Char) (b : Bool)
    (h : (processLine render sp acc l b).new_frag = none) :
    acc.new_frag = none ∧ (processLine render sp acc l b).passthrough = acc.passthrough := by
  obtain ⟨cbo, nf, pt, pre⟩ := acc
  simp only [processLine, advancePre_new_frag, advancePre_passthrough] at h ⊢
  rcases cbo with _ | ⟨f, cap, spn⟩
  · rcases hp : parseFence l with _ | ⟨f, tag⟩
    · simp only [processLineCore, hp] at h ⊢
      exact passthroughEmit_none _ _ _ h
    · by_cases ht : isTargetTag tag = true
      · simp only [processLineCore, hp, if_pos ht] at h ⊢
        exact suppressEmit_none _ h
      · simp only [processLineCore, hp, if_neg ht] at h ⊢
        exact passthroughEmit_none _ _ _ h
  · by_cases hl : l = f
    · subst hl
      rcases cap with _ | cap
      · simp only [processLineCore, if_pos rfl] at h ⊢
        exact passthroughEmit_none _ _ _ h
      · exfalso
        simp [processLineCore] at h
    · rcases cap with _ | cap
      · simp only [processLineCore, if_neg hl] at h ⊢
        exact passthroughEmit_none _ _ _ h
      · simp only [processLineCore, if_neg hl] at h ⊢
        exact suppressEmit_none _ h

theorem runLines_new_frag_none (render : List Char → List Nat) (sp : Nat) :
    ∀ (ls : List (List Char)) (acc : StepAcc),
      (runLines render sp acc ls).new_frag = none →
      acc.new_frag = none ∧ (runLines render sp acc ls).passthrough = acc.passthrough := by
  intro ls
  induction ls with
  | nil => intro acc h; exact ⟨h, rfl⟩
  | cons l ls ih =>
    intro acc h
    cases ls with
    | nil =>
      simp only [runLines_singleton] at h ⊢
      exact processLine_new_frag_none render sp acc l false h
    | cons l2 ls2 =>
      rw [runLines_cons_of_ne_nil _ _ _ _ _ (by simp)] at h ⊢
      obtain ⟨h1, h2⟩ := ih (processLine render sp acc l true) h
      obtain ⟨h3, h4⟩ := processLine_new_frag_none render sp acc l true h1
      exact ⟨h3, by rw [h2, h4]⟩

/-- Running, while capturing, a chunk of lines none of which equals the
fence: `new_frag` stays unmaterialized and `passthrough` stays off. -/
theorem runLines_captured_all (render : List Char → List Nat) (sp : Nat) (f : List Char)
    (ls : List (List Char)) (c : List Char) (spn : Nat) (p : List Char)
    (hne : ∀ l ∈ ls, l ≠ f) (hls : ls ≠ []) :
    ∃ q, runLines render sp ⟨some ⟨f, some ⟨c⟩, spn⟩, none, false, p⟩ ls
      = ⟨some ⟨f, some ⟨c ++ capContent ls f⟩, spn⟩, none, false, q⟩ := by
  rcases List.eq_nil_or_concat ls with rfl | ⟨ds, y, rfl⟩
  · exact absurd rfl hls
  · simp only [List.concat_eq_append] at hne ⊢
    rw [runLines_concat]
    obtain ⟨q, hq⟩ := runInner_captured render sp f ds c spn none p
      (fun l hl => hne l (by simp [hl]))
    rw [hq, processLine_captured _ _ _ _ _ _ _ _ _ (hne y (by simp)), ifFalseNl]
    refine ⟨q ++ y ++ [], ?_⟩
    rw [capContent_append, capContent_cons]
    simp [capContent, List.append_assoc]

/-- If `new_frag` is still unmaterialized after running a chunk from a
capturing state with it unmaterialized, then no line of the chunk equalled
the fence (no close happened). -/
theorem runLines_none_imp_ne (render : List Char → List Nat) (sp : Nat) (f : List Char) :
    ∀ (ls : List (List Char)) (c : List Char) (spn : Nat) (p : List Char),
      (runLines render sp ⟨some ⟨f, some ⟨c⟩, spn⟩, none, false, p⟩ ls).new_frag = none →
      ∀ l ∈ ls, l ≠ f := by
  intro ls
  induction ls with
  | nil =>
    intro c spn p _ l hl
    simp at hl
  | cons l0 ls ih =>
    intro c spn p h l hl
    by_cases hl0 : l0 = f
    · exfalso
      subst hl0
      cases ls with
      | nil =>
        rw [runLines_singleton, processLine_close] at h
        simp at h
      | cons l2 ls2 =>
        rw [runLines_cons_of_ne_nil _ _ _ _ _ (by simp)] at h
        obtain ⟨h1, _⟩ := runLines_new_frag_none render sp (l2 :: ls2) _ h
        rw [processLine_close] at h1
        simp at h1
    · rcases List.mem_cons.mp hl with rfl | hmem
      · exact hl0
      · cases ls with
        | nil => exact absurd hmem (List.not_mem_nil l)
        | cons l2 ls2 =>
          rw [runLines_cons_of_ne_nil _ _ _ _ _ (by simp),
              processLine_captured _ _ _ _ _ _ _ _ _ hl0, ifTrueNl] at h
          exact ih _ spn _ h l hmem

/-- C2 (amended): `step` returns `Empty` exactly when capture was already
active at entry and every line of the chunk was suppressed without closing
the block (no line equals the recorded fence text); a suppressing chunk
arriving while no capture is active — in particular a chunk consisting
solely of a capture-starting fence line such as `"```svgbob\n"` — returns
`Fragment` carrying the (empty) assembled text, never `Empty`.  In the
five-chunk scenario the outputs are therefore `Fragment ""`, `Empty`,
`Empty`, `Empty`, and finally the `Fragment` with the embed token of the
captured text, and `finalize` succeeds. -/
theorem empty_output_law (render : List Char → List Nat) :
    (∀ (st : TextProcState) (frag : List Char) (sp : Nat),
        (step render st frag sp).2 = .Empty ↔
          ∃ f c spn, st.code_block = some ⟨f, some ⟨c⟩, spn⟩ ∧
            ∀ l ∈ splitLines frag, l ≠ f)
      ∧ runOutputs render 0 TextProcState.new
          ["```svgbob\n".toList, "+-+\n".toList, "| |\n".toList, "+-+\n".toList,
           "```\n".toList]
        = [.Fragment [], .Empty, .Empty, .Empty,
           .Fragment (convert_diagram render ("\n+-+\n\n| |\n\n+-+\n".toList))]
      ∧ finalize (runChunks render 0 TextProcState.new
          ["```svgbob\n".toList, "+-+\n".toList, "| |\n".toList, "+-+\n".toList,
           "```\n".toList]).1 = .ok () := by
  have h1 : step render TextProcState.new ("```svgbob\n".toList) 0
      = (⟨some ⟨"```".toList, some ⟨"\n".toList⟩, 0⟩⟩, .Fragment []) := rfl
  have h2 : step render (⟨some ⟨"```".toList, some ⟨"\n".toList⟩, 0⟩⟩ : TextProcState)
        ("+-+\n".toList) 0
      = (⟨some ⟨"```".toList, some ⟨"\n+-+\n\n".toList⟩, 0⟩⟩, .Empty) := rfl
  have h3 : step render (⟨some ⟨"```".toList, some ⟨"\n+-+\n\n".toList⟩, 0⟩⟩ : TextProcState)
        ("| |\n".toList) 0
      = (⟨some ⟨"```".toList, some ⟨"\n+-+\n\n| |\n\n".toList⟩, 0⟩⟩, .Empty) := rfl
  have h4 : step render
        (⟨some ⟨"```".toList, some ⟨"\n+-+\n\n| |\n\n".toList⟩, 0⟩⟩ : TextProcState)
        ("+-+\n".toList) 0
      = (⟨some ⟨"```".toList, some ⟨"\n+-+\n\n| |\n\n+-+\n\n".toList⟩, 0⟩⟩, .Empty) := rfl
  have h5 : step render
        (⟨some ⟨"```".toList, some ⟨"\n+-+\n\n| |\n\n+-+\n\n".toList⟩, 0⟩⟩ : TextProcState)
        ("```\n".toList) 0
      = (⟨none⟩, .Fragment
          (convert_diagram render ("\n+-+\n\n| |\n\n+-+\n\n".toList.dropLast)
            ++ [] ++ [])) := rfl
  have h6 : ("\n+-+\n\n| |\n\n+-+\n\n".toList).dropLast
      = "\n+-+\n\n| |\n\n+-+\n".toList := by decide
  rw [h6] at h5
  simp only [List.append_nil] at h5
  simp at h1 h2 h3 h4 h5
  refine ⟨?_, ?_, ?_⟩
  · intro st frag sp
    constructor
    · intro h
      have h' : accOut (runLines render sp (initAcc st) (splitLines frag)) = .Empty := h
      rw [accOut_empty_iff] at h'
      obtain ⟨hnf, hpt⟩ := h'
      obtain ⟨_, hpteq⟩ :=
        runLines_new_frag_none render sp (splitLines frag) (initAcc st) hnf
      have hcap : isCapturing st.code_block = true := by
        have hpt0 : (initAcc st).passthrough = false := by rw [← hpteq]; exact hpt
        simpa [initAcc] using hpt0
      rcases hsc : st.code_block with _ | ⟨f, cap, spn⟩
      · rw [hsc] at hcap
        simp [isCapturing] at hcap
      · rcases cap with _ | ⟨⟨cc⟩⟩
        · rw [hsc] at hcap
          simp [isCapturing] at hcap
        · refine ⟨f, cc, spn, rfl, ?_⟩
          have hinit : initAcc st = ⟨some ⟨f, some ⟨cc⟩, spn⟩, none, false, []⟩ := by
            simp [initAcc, hsc, isCapturing]
          rw [hinit] at hnf
          exact runLines_none_imp_ne render sp f (splitLines frag) cc spn [] hnf
    · rintro ⟨f, c, spn, hsc, hlines⟩
      have hinit : initAcc st = ⟨some ⟨f, some ⟨c⟩, spn⟩, none, false, []⟩ := by
        simp [initAcc, hsc, isCapturing]
      show accOut (runLines render sp (initAcc st) (splitLines frag)) = .Empty
      rw [hinit]
      obtain ⟨q, hq⟩ := runLines_captured_all render sp f (splitLines frag) c spn []
        hlines (splitLines_ne_nil frag)
      rw [hq]
      rfl
  · simp [runOutputs, h1, h2, h3, h4, h5]
  · simp [runChunks, h1, h2, h3, h4, h5, finalize]

/-- C2 counterexample: the chunk `"```svgbob\n"`, in which the
capture-starting fence line was suppressed and the assembled output text is
empty, makes `step` return `Fragment ""` — not `Empty` as the claim
states. -/
theorem capture_start_fragment_cex :
    (step lenRender TextProcState.new ("```svgbob\n".toList) 0).2
        = TextProcOutput.Fragment []
      ∧ (step lenRender TextProcState.new ("```svgbob\n".toList) 0).2
        ≠ TextProcOutput.Empty := ⟨by decide, by decide⟩

/-- C6: when a line opens a fence block, capture begins (capture becomes
`Some` with empty content and the opening line is suppressed, the call
emitting `Fragment ""`) if and only if the trimmed language tag is the
target tag — equal to `"svgbob"` or starting with `"svgbob,"`; for every
other tag the block opens with no capture and the line passes through. -/
theorem capture_trigger_tag (render : List Char → List Nat) (sp : Nat)
    (l f tag : List Char) (hnl : '\n' ∉ l) (hp : parseFence l = some (f, tag)) :
    step render TextProcState.new l sp
      = (⟨some ⟨f, if isTargetTag tag then some ⟨[]⟩ else none, sp⟩⟩,
         if isTargetTag tag then .Fragment [] else .Passthrough) := by
  rw [step_single render _ l sp hnl]
  by_cases ht : isTargetTag tag = true
  · simp [processLineCore, initAcc, isCapturing, hp, ht, suppressEmit, prepare, accOut,
      TextProcState.new]
  · simp [processLineCore, initAcc, isCapturing, hp, ht, passthroughEmit, accOut,
      TextProcState.new]

/-- C6 witness: tag `"svgbob"` triggers capture and suppression; tag
`"rust"` opens the block with no capture and passes the line through. -/
theorem capture_trigger_tag_witness :
    (parseFence ("```svgbob".toList) = some ("```".toList, "svgbob".toList) ∧
      step lenRender TextProcState.new ("```svgbob".toList) 5
        = (⟨some ⟨"```".toList, some ⟨[]⟩, 5⟩⟩, .Fragment [])) ∧
    (parseFence ("```rust".toList) = some ("```".toList, "rust".toList) ∧
      step lenRender TextProcState.new ("```rust".toList) 5
        = (⟨some ⟨"```".toList, none, 5⟩⟩, .Passthrough)) := by
  constructor
  · refine ⟨by decide, ?_⟩
    rw [capture_trigger_tag lenRender 5 ("```svgbob".toList) ("```".toList)
      ("svgbob".toList) (by decide) (by decide)]
    decide
  · refine ⟨by decide, ?_⟩
    rw [capture_trigger_tag lenRender 5 ("```rust".toList) ("```".toList)
      ("rust".toList) (by decide) (by decide)]
    decide

/-! ## Structural characterization of the fence-open pattern -/

theorem takeWhile_all_append (p : Char → Bool) :
    ∀ (xs ys : List Char), (∀ a ∈ xs, p a = true) →
      (∀ h t, ys = h :: t → p h = false) →
      (xs ++ ys).takeWhile p = xs ∧ (xs ++ ys).dropWhile p = ys := by
  intro xs
  induction xs with
  | nil =>
    intro ys _ hy
    cases ys with
    | nil => exact ⟨rfl, rfl⟩
    | cons h t =>
      simp [List.takeWhile_cons, List.dropWhile_cons, hy h t rfl]
  | cons x xs ih =>
    intro ys hx hy
    have hpx : p x = true := hx x (by simp)
    obtain ⟨h1, h2⟩ := ih ys (fun a ha => hx a (by simp [ha])) hy
    simp [List.takeWhile_cons, List.dropWhile_cons, hpx, h1, h2]

theorem drop_length_takeWhile (p : Char → Bool) :
    ∀ l : List Char, l.drop (l.takeWhile p).length = l.dropWhile p := by
  intro l
  induction l with
  | nil => rfl
  | cons a l ih =>
    cases hp : p a <;>
      simp [List.takeWhile_cons, List.dropWhile_cons, hp, ih]

theorem dropWhile_head_false (p : Char → Bool) :
    ∀ (l : List Char) (h : Char) (t : List Char),
      l.dropWhile p = h :: t → p h = false := by
  intro l
  induction l with
  | nil =>
    intro h t hl
    simp [List.dropWhile] at hl
  | cons a l ih =>
    intro h t hl
    rw [List.dropWhile_cons] at hl
    by_cases hp : p a = true
    · rw [if_pos hp] at hl
      exact ih h t hl
    · rw [if_neg hp] at hl
      injection hl with h1 _
      subst h1
      cases hpa : p a
      · rfl
      · exact absurd hpa hp

theorem isFenceChar_ne_space (c : Char) (hc : isFenceChar c = true) : c ≠ ' ' := by
  intro he
  subst he
  exact absurd hc (by decide)

theorem mem_takeWhile_decide {q : Char → Prop} [DecidablePred q] {l : List Char} {b : Char}
    (hb : b ∈ l.takeWhile (fun x => decide (q x))) : q b := by
  have h := List.mem_takeWhile_imp hb
  simpa using h

/-- Reduce `parseFence` once the leading-space run and the first non-space
character are known. -/
theorem parseFence_eq_of_dropWhile (l : List Char) (c : Char) (tl : List Char)
    (hk : (l.takeWhile (fun x => x = ' ')).length ≤ 3)
    (hd : l.dropWhile (fun x => x = ' ') = c :: tl) :
    parseFence l =
      if isFenceChar c then
        if 3 ≤ ((c :: tl).takeWhile (fun d => d = c)).length then
          some (l.takeWhile (fun x => x = ' ') ++ (c :: tl).takeWhile (fun d => d = c),
                trimWS ((c :: tl).drop ((c :: tl).takeWhile (fun d => d = c)).length))
        else none
      else none := by
  unfold parseFence
  rw [hd, if_pos hk]

/-- Completeness of the fence-open pattern: a line of the shape
`indent (≤ 3 spaces) + maximal run (≥ 3) of one fence character + rest`
opens, with fence text exactly the indent-plus-run and tag the trimmed
rest. -/
theorem parseFence_complete (k n : Nat) (c : Char) (rest : List Char)
    (hk : k ≤ 3) (hn : 3 ≤ n) (hc : isFenceChar c = true)
    (hrest : ∀ h t, rest = h :: t → h ≠ c) :
    parseFence (List.replicate k ' ' ++ (List.replicate n c ++ rest))
      = some (List.replicate k ' ' ++ List.replicate n c, trimWS rest) := by
  have hcs : c ≠ ' ' := isFenceChar_ne_space c hc
  have hrep : List.replicate n c = c :: List.replicate (n - 1) c := by
    cases n with
    | zero => omega
    | succ m => simp [List.replicate_succ]
  have hly : ∀ h t, (List.replicate n c ++ rest) = h :: t → (decide (h = ' ')) = false := by
    intro h t hyt
    rw [hrep, List.cons_append] at hyt
    injection hyt with h1 _
    subst h1
    exact decide_eq_false hcs
  obtain ⟨htw, hdw⟩ := takeWhile_all_append (fun x => decide (x = ' '))
    (List.replicate k ' ') (List.replicate n c ++ rest)
    (fun a ha => by
      have := List.eq_of_mem_replicate ha
      subst this
      exact decide_eq_true rfl)
    hly
  obtain ⟨htw2, hdw2⟩ := takeWhile_all_append (fun x => decide (x = c))
    (List.replicate n c) rest
    (fun a ha => by
      have := List.eq_of_mem_replicate ha
      subst this
      exact decide_eq_true rfl)
    (fun h t hyt => decide_eq_false (hrest h t hyt))
  rw [parseFence_eq_of_dropWhile _ c (List.replicate (n - 1) c ++ rest)
        (by rw [htw, List.length_replicate]; exact hk)
        (by rw [hdw, hrep, List.cons_append]),
      if_pos hc,
      show c :: (List.replicate (n - 1) c ++ rest) = List.replicate n c ++ rest from by
        rw [hrep, List.cons_append],
      htw2, List.length_replicate, if_pos hn, htw,
      List.drop_left' (List.length_replicate ..)]

/-- Soundness of the fence-open pattern: whenever `parseFence` succeeds, the
line decomposes into an indent of at most 3 spaces, a maximal run of at
least 3 identical fence characters, and a rest whose trim is the tag. -/
theorem parseFence_sound (l f t : List Char) (h : parseFence l = some (f, t)) :
    ∃ k n c rest, k ≤ 3 ∧ 3 ≤ n ∧ isFenceChar c = true ∧
      l = List.replicate k ' ' ++ (List.replicate n c ++ rest) ∧
      f = List.replicate k ' ' ++ List.replicate n c ∧
      t = trimWS rest ∧ ∀ h' t', rest = h' :: t' → h' ≠ c := by
  rcases hd : l.dropWhile (fun x => decide (x = ' ')) with _ | ⟨c0, tl⟩
  · unfold parseFence at h
    rw [hd] at h
    split at h <;> simp at h
  · have hk : (l.takeWhile (fun x => decide (x = ' '))).length ≤ 3 := by
      by_contra hk'
      unfold parseFence at h
      rw [if_neg hk'] at h
      exact Option.noConfusion h
    rw [parseFence_eq_of_dropWhile l c0 tl hk hd] at h
    by_cases hfc : isFenceChar c0 = true
    swap
    · rw [if_neg hfc] at h
      exact Option.noConfusion h
    rw [if_pos hfc] at h
    by_cases hrun : 3 ≤ ((c0 :: tl).takeWhile (fun d => decide (d = c0))).length
    swap
    · rw [if_neg hrun] at h
      exact Option.noConfusion h
    rw [if_pos hrun] at h
    injection h with h'
    have hf : f = l.takeWhile (fun x => decide (x = ' '))
        ++ (c0 :: tl).takeWhile (fun d => decide (d = c0)) := by
      have := congrArg Prod.fst h'
      simpa using this.symm
    have ht : t = trimWS ((c0 :: tl).drop
        ((c0 :: tl).takeWhile (fun d => decide (d = c0))).length) := by
      have := congrArg Prod.snd h'
      simpa using this.symm
    have hikrep : l.takeWhile (fun x => decide (x = ' '))
        = List.replicate (l.takeWhile (fun x => decide (x = ' '))).length ' ' :=
      List.eq_replicate_of_mem
        (fun b hb => @mem_takeWhile_decide (fun x => x = ' ') _ _ _ hb)
    have hrunrep : (c0 :: tl).takeWhile (fun d => decide (d = c0))
        = List.replicate ((c0 :: tl).takeWhile (fun d => decide (d = c0))).length c0 :=
      List.eq_replicate_of_mem
        (fun b hb => @mem_takeWhile_decide (fun x => x = c0) _ _ _ hb)
    refine ⟨(l.takeWhile (fun x => decide (x = ' '))).length,
            ((c0 :: tl).takeWhile (fun d => decide (d = c0))).length, c0,
            (c0 :: tl).dropWhile (fun d => decide (d = c0)),
            hk, hrun, hfc, ?_, ?_, ?_, ?_⟩
    · conv_lhs => rw [← List.takeWhile_append_dropWhile (fun x => decide (x = ' ')) l]
      rw [hd]
      conv_lhs => rw [← List.takeWhile_append_dropWhile
        (fun d => decide (d = c0)) (c0 :: tl)]
      rw [← hikrep, ← hrunrep]
    · rw [hf, ← hikrep, ← hrunrep]
    · rw [ht, drop_length_takeWhile]
    · intro h' t' hrt
      exact of_decide_eq_false (dropWhile_head_false _ _ _ _ hrt)

/-- The `code_block` state after one line from the initial state. -/
theorem step_new_cb (render : List Char → List Nat) (sp : Nat) (l : List Char)
    (hnl : '\n' ∉ l) :
    (step render TextProcState.new l sp).1.code_block
      = match parseFence l with
        | some (f, tag) => some ⟨f, if isTargetTag tag then some ⟨[]⟩ else none, sp⟩
        | none => none := by
  rw [step_cb, splitLines_noNl l hnl]
  show lineCB sp none l = _
  unfold lineCB
  rfl

/-- C7: a line processed while no block is open opens a new block if and
only if it consists of at most 3 leading spaces, then a run of 3 or more
identical fence characters (backtick or tilde), then any rest; fewer than 3
fence characters or 4 or more leading spaces never open a block.  When it
opens, the recorded fence text is exactly the matched indent plus the
maximal fence-character run, and the tag is the whitespace-trimmed rest. -/
theorem fence_open_classification (render : List Char → List Nat) (sp : Nat)
    (l : List Char) (hnl : '\n' ∉ l) :
    (((step render TextProcState.new l sp).1.code_block).isSome = true ↔
        ∃ k n c rest, k ≤ 3 ∧ 3 ≤ n ∧ isFenceChar c = true ∧
          l = List.replicate k ' ' ++ (List.replicate n c ++ rest))
      ∧ (∀ k n c rest, k ≤ 3 → 3 ≤ n → isFenceChar c = true →
          (∀ h' t', rest = h' :: t' → h' ≠ c) →
          l = List.replicate k ' ' ++ (List.replicate n c ++ rest) →
          (step render TextProcState.new l sp).1.code_block
            = some ⟨List.replicate k ' ' ++ List.replicate n c,
                if isTargetTag (trimWS rest) then some ⟨[]⟩ else none, sp⟩) := by
  constructor
  · constructor
    · intro hs
      rw [step_new_cb render sp l hnl] at hs
      rcases hp : parseFence l with _ | ⟨f, tag⟩
      · rw [hp] at hs
        simp at hs
      · obtain ⟨k, n, c, rest, hk, hn, hc, hl, _, _, _⟩ :=
          parseFence_sound l f tag hp
        exact ⟨k, n, c, rest, hk, hn, hc, hl⟩
    · intro hex
      obtain ⟨k, n, c, rest, hk, hn, hc, hl⟩ := hex
      have hrunrep : rest.takeWhile (fun d => decide (d = c))
          = List.replicate (rest.takeWhile (fun d => decide (d = c))).length c :=
        List.eq_replicate_of_mem
          (fun b hb => @mem_takeWhile_decide (fun x => x = c) _ _ _ hb)
      have hl2 : l = List.replicate k ' '
          ++ (List.replicate (n + (rest.takeWhile (fun d => decide (d = c))).length) c
              ++ rest.dropWhile (fun d => decide (d = c))) := by
        rw [hl]
        congr 1
        conv_lhs => rw [← List.takeWhile_append_dropWhile
          (fun d => decide (d = c)) rest]
        rw [hrunrep, ← List.append_assoc, ← List.replicate_add]
        simp [List.length_replicate]
      rw [step_new_cb render sp l hnl, hl2,
          parseFence_complete k _ c _ hk (by omega) hc
            (fun h' t' hrt => of_decide_eq_false (dropWhile_head_false _ _ _ _ hrt))]
      rfl
  · intro k n c rest hk hn hc hrest hl
    rw [step_new_cb render sp l hnl, hl,
        parseFence_complete k n c rest hk hn hc hrest]

/-- C7 witness: the line `"  ~~~svgbob"` (2 spaces of indent, a run of 3
tildes, tag rest `"svgbob"`) opens a block. -/
theorem fence_open_classification_witness :
    ('\n' ∉ "  ~~~svgbob".toList) ∧
    ((step lenRender TextProcState.new ("  ~~~svgbob".toList) 0).1.code_block).isSome
      = true := by
  refine ⟨by decide, ?_⟩
  exact (fence_open_classification lenRender 0 ("  ~~~svgbob".toList) (by decide)).1.mpr
    ⟨2, 3, '~', "svgbob".toList, by omega, by omega, by decide, by decide⟩

end Svgbobdoc
